import Mathlib

/-!
# Lyda wheel: spin resolution and spin lifecycle

A shallow embedding of `src/App.jsx`.

* Angles are degrees, held as rationals.  With the six options of the
  application every angle the code computes is an integer, so the double
  arithmetic of the source is exact there.
* `Math.random()` is a double `u` with `0 ≤ u < 1`, passed in explicitly, and
  the product `Math.random() * n` of line 17 is the double nearest to the
  exact product (round to nearest, ties to even), as IEEE 754 has it.
* The `async` function `onSpin` is cut at its two `await`s: `onSpin` is the
  part that runs at the click, `animationDone` resumes after
  `controls.start`, `timerFired` resumes after the 800 ms timer and runs the
  rest of the body.
* A JavaScript value that is a string, `null` or `undefined` is an
  `Option String`.
* The click handler is the `onSpin` of the latest render, so the `spinning`
  it tests on line 40 is the current value of the state cell.
-/

namespace LydaWheel

/-! ## Constants and the selector -/

/-- The option labels, `OPTIONS` of App.jsx lines 6-13. -/
def OPTIONS : List String :=
  ["Skatebord", "Gå i seng", "Se fjernsyn", "Symaskine", "Læse bog", "Tegne"]

/-- One value returned by `Math.random()`: a double in `[0, 1)`.  These are
the numbers `mant / 2 ^ scale` below 1 with a significand `mant` of at most 53
bits and an exponent `-scale` of at least `-1074`. -/
structure Draw where
  mant : ℕ
  scale : ℕ
  mant_lt : mant < 2 ^ 53
  scale_le : scale ≤ 1074
  lt_one : mant < 2 ^ scale

/-- The number a draw stands for. -/
def Draw.val (u : Draw) : ℚ := (u.mant : ℚ) / 2 ^ u.scale

/-- The integer nearest to `q`, the even one of the two when `q` is halfway. -/
def roundHalfEven (q : ℚ) : ℤ :=
  if q - (⌊q⌋ : ℚ) < 1 / 2 then ⌊q⌋
  else if 1 / 2 < q - (⌊q⌋ : ℚ) then ⌊q⌋ + 1
  else if ⌊q⌋ % 2 = 0 then ⌊q⌋ else ⌊q⌋ + 1

/-- The exponent of the unit in the last place of the doubles around `x`:
53 significant bits, and `-1074` in the subnormal range. -/
def ulpExp (x : ℚ) : ℤ := max (Int.log 2 |x| - 52) (-1074)

/-- The double nearest to `x`, ties to even: the result of a double
operation whose exact result is `x`, as long as it is at most `maxDouble`. -/
def toDouble (x : ℚ) : ℚ := (roundHalfEven (x / 2 ^ ulpExp x) : ℚ) * 2 ^ ulpExp x

/-- The largest finite double. -/
def maxDouble : ℚ := (2 ^ 53 - 1) * 2 ^ 971

/-- Line 17: `rand = (n) => Math.floor(Math.random() * n)`; the product is a
double product, and `Math.floor` of a double is exact.  The code calls it with
`n = slices` and `n = 3`, integers that are doubles. -/
def rand (u : Draw) (n : ℕ) : ℤ := ⌊toDouble (u.val * (n : ℚ))⌋

/-- Line 28: `slices = OPTIONS.length`, for a given option list. -/
def slices (opts : List String) : ℕ := opts.length

/-- Line 29: `sliceAngle = 360 / slices`. -/
def sliceAngle (n : ℕ) : ℚ := 360 / (n : ℚ)

/-- Line 48: `target = fullTurns * 360 + (360 - (winnerIndex * sliceAngle + sliceAngle / 2))`. -/
def target (n : ℕ) (winnerIndex fullTurns : ℤ) : ℚ :=
  (fullTurns : ℚ) * 360 + (360 - ((winnerIndex : ℚ) * sliceAngle n + sliceAngle n / 2))

/-- Line 46: `fullTurns = 4 + rand(3)`. -/
def fullTurnsOf (u : Draw) : ℤ := 4 + rand u 3

/-- Line 57: the lookup `OPTIONS[winnerIndex]`; `none` is `undefined`. -/
def optionAt (opts : List String) (k : ℤ) : Option String :=
  if 0 ≤ k then opts[k.toNat]? else none

/-! ## Reading an angle back (the spec's "angle at pointer") -/

/-- The value of `x` modulo 360, in `[0, 360)`. -/
def mod360 (x : ℚ) : ℚ := x - 360 * (⌊x / 360⌋ : ℚ)

/-- The spec's angle at the pointer: `(360 − (rotationTarget mod 360)) mod 360`. -/
def angleAtPointer (t : ℚ) : ℚ := mod360 (360 - mod360 t)

/-- The slice an angle of `[0, 360)` falls in: the `i` with
`i * sliceAngle ≤ a < (i + 1) * sliceAngle`. -/
def sliceOfAngle (n : ℕ) (a : ℚ) : ℤ := ⌊a / sliceAngle n⌋

/-! ## The wheel as drawn -/

/-- Line 95: the start angle of slice `i`, in degrees (the source converts
it to radians for `Math.cos` and `Math.sin`).  The rim point is
`(cos start * r, sin start * r)` in the SVG frame, whose y axis points down:
the angle is measured clockwise from the positive x axis. -/
def sliceStart (n : ℕ) (i : ℤ) : ℚ := (i : ℚ) * sliceAngle n

/-- Line 96: the end angle of slice `i`, in degrees. -/
def sliceEnd (n : ℕ) (i : ℤ) : ℚ := ((i : ℚ) + 1) * sliceAngle n

/-- Lines 113-114: the label of slice `i` sits at `(start + end) / 2`. -/
def sliceCentre (n : ℕ) (i : ℤ) : ℚ := (sliceStart n i + sliceEnd n i) / 2

/-- Lines 81-83: the pointer is centred above the wheel, at 12 o'clock, which
is 270 degrees clockwise from the positive x axis. -/
def pointerAngle : ℚ := 270

/-- Lines 85-88: the wheel is a `motion.div` animated to `rotate: target`, a
clockwise CSS rotation.  A point drawn at angle `a` of the wheel shows at
this angle of the screen. -/
def screenAngle (rotate a : ℚ) : ℚ := mod360 (a + rotate)

/-- The angle of the wheel that shows under the pointer when the wheel is
rotated by `rotate`. -/
def wheelAngleUnderPointer (rotate : ℚ) : ℚ := mod360 (pointerAngle - rotate)

/-- The slice drawn under the pointer when the wheel is rotated by `rotate`. -/
def sliceUnderPointer (n : ℕ) (rotate : ℚ) : ℤ :=
  sliceOfAngle n (wheelAngleUnderPointer rotate)

/-! ## The component state and `onSpin` -/

/-- The four `useState` cells of lines 20-23. -/
structure AppState where
  result : Option String
  spinning : Bool
  thinking : Bool
  history : List (Option String)
  deriving DecidableEq, Repr

/-- Where a call of `onSpin` is suspended. -/
inductive Stage
  | awaitAnimation
  | awaitTimer
  deriving DecidableEq, Repr

/-- A suspended call of `onSpin`: the locals it still needs. -/
structure Suspended where
  winnerIndex : ℤ
  target : ℚ
  stage : Stage
  deriving DecidableEq, Repr

/-- The calls the component makes on its collaborators. -/
inductive Effect
  | random
  | animate (rotate : ℚ)
  | confetti
  deriving DecidableEq, Repr

/-- The component together with its suspended calls, the rotation the wheel
has been animated to, and the log of the calls made. -/
structure Machine where
  ui : AppState
  suspended : List Suspended
  rotate : ℚ
  effects : List Effect
  deriving DecidableEq, Repr

/-- Lines 20-23 and 88: the state at mount. -/
def init : Machine :=
  { ui := { result := none, spinning := false, thinking := false, history := [] },
    suspended := [], rotate := 0, effects := [] }

/-- Line 59: `setHistory((h) => [choice, ...h].slice(0, 6))`. -/
def pushHistory {α : Type} (choice : α) (h : List α) : List α := (choice :: h).take 6

/-- Lines 39-53: `onSpin` from the click to the first `await`. -/
def onSpin (opts : List String) (m : Machine) (u1 u2 : Draw) : Machine :=
  if m.ui.spinning then m
  else
    let winnerIndex := rand u1 (slices opts)
    let fullTurns := fullTurnsOf u2
    let t := target (slices opts) winnerIndex fullTurns
    { ui := { m.ui with result := none, spinning := true, thinking := true },
      suspended := m.suspended ++ [{ winnerIndex := winnerIndex, target := t,
                                     stage := Stage.awaitAnimation }],
      rotate := m.rotate,
      effects := m.effects ++ [Effect.random, Effect.random, Effect.animate t] }

/-- Lines 50-55: the animation started by `controls.start` finishes; the
suspended call goes on to wait for the timer. -/
def animationDone (m : Machine) : Machine :=
  match m.suspended with
  | { winnerIndex := k, target := t, stage := Stage.awaitAnimation } :: rest =>
    { m with suspended := { winnerIndex := k, target := t, stage := Stage.awaitTimer } :: rest,
             rotate := t }
  | _ => m

/-- Lines 55-62: the timer fires and the rest of `onSpin` runs. -/
def timerFired (opts : List String) (m : Machine) : Machine :=
  match m.suspended with
  | { winnerIndex := k, target := _, stage := Stage.awaitTimer } :: rest =>
    let choice := optionAt opts k
    { ui := { result := choice, spinning := false, thinking := false,
              history := pushHistory choice m.ui.history },
      suspended := rest,
      rotate := m.rotate,
      effects := m.effects ++ [Effect.confetti] }
  | _ => m

/-- What can happen to the component. -/
inductive Event
  | request (u1 u2 : Draw)
  | animationDone
  | timerFired

/-- One event. -/
def step (opts : List String) (m : Machine) : Event → Machine
  | Event.request u1 u2 => onSpin opts m u1 u2
  | Event.animationDone => animationDone m
  | Event.timerFired => timerFired opts m

/-- A trace of events, oldest first. -/
def run (opts : List String) (m : Machine) (evs : List Event) : Machine :=
  evs.foldl (step opts) m

/-- The history after the given outcomes were pushed, oldest first. -/
def historyAfter {α : Type} (outcomes : List α) : List α :=
  outcomes.foldl (fun h o => pushHistory o h) []

/-- The number of animations started. -/
def animationsStarted (m : Machine) : ℕ :=
  (m.effects.filter (fun e => match e with | Effect.animate _ => true | _ => false)).length

/-- The number of results published: `launchConfetti` is called once with
each, on line 62. -/
def resultsPublished (m : Machine) : ℕ :=
  (m.effects.filter (fun e => match e with | Effect.confetti => true | _ => false)).length

/-- The number of `Math.random()` calls made. -/
def randomCalls (m : Machine) : ℕ :=
  (m.effects.filter (fun e => match e with | Effect.random => true | _ => false)).length

/-- Whether the component is spinning in `m` and stays so through `evs`. -/
def spinningThroughout (opts : List String) (m : Machine) : List Event → Bool
  | [] => m.ui.spinning
  | e :: es => m.ui.spinning && spinningThroughout opts (step opts m e) es

/-! ## Draws used in examples -/

/-- The draw `0`. -/
def draw0 : Draw := ⟨0, 0, by norm_num, by norm_num, by norm_num⟩

/-- The draw `0.9`, which is the double `8106479329266893 / 2 ^ 53`. -/
def draw9 : Draw := ⟨8106479329266893, 53, by norm_num, by norm_num, by norm_num⟩

/-- The draw `0.5`. -/
def drawHalf : Draw := ⟨1, 1, by norm_num, by norm_num, by norm_num⟩

/-- The draw `0.8333333333333333`, which is the double `3752999689475413 / 2 ^ 52`,
just below `5/6`. -/
def drawFiveSixths : Draw := ⟨3752999689475413, 52, by norm_num, by norm_num, by norm_num⟩

/-- The draw `0.6666666666666666`, which is the double `6004799503160661 / 2 ^ 53`,
just below `2/3`. -/
def drawTwoThirds : Draw := ⟨6004799503160661, 53, by norm_num, by norm_num, by norm_num⟩


/-! ## Sessions, example states and invariants -/

/-- The events of a session of whole spins with the given draws, oldest first. -/
def session : List (Draw × Draw) → List Event
  | [] => []
  | (u1, u2) :: ds =>
    Event.request u1 u2 :: Event.animationDone :: Event.timerFired :: session ds

/-- A state in which a spin is in flight and waits for its animation. -/
def spinningExample : Machine :=
  { ui := { result := none, spinning := true, thinking := true, history := [some "Tegne"] },
    suspended := [{ winnerIndex := 0, target := 1770, stage := Stage.awaitAnimation }],
    rotate := 1530,
    effects := [Effect.random, Effect.random, Effect.animate 1530, Effect.confetti,
      Effect.random, Effect.random, Effect.animate 1770] }

/-- The labels on show are option labels: the index of every suspended call
is in range, the result is `null` or one of the labels, and so is every
history entry a label. -/
def LabelsOk (m : Machine) : Prop :=
  (∀ s ∈ m.suspended, 0 ≤ s.winnerIndex ∧ s.winnerIndex < 6) ∧
  (m.ui.result = none ∨ ∃ l, m.ui.result = some l ∧ l ∈ OPTIONS) ∧
  (∀ h ∈ m.ui.history, ∃ l, h = some l ∧ l ∈ OPTIONS)

/-- What holds in every state the component reaches: a call is suspended
exactly when `spinning` is set, and then only one; the result is `null` while
spinning; `thinking` goes with `spinning`; every animation started has
published its result or is still suspended; each animation cost two random
draws. -/
def Inv (m : Machine) : Prop :=
  (m.ui.spinning = false → m.suspended = []) ∧
  (m.ui.spinning = true → ∃ s, m.suspended = [s]) ∧
  (m.ui.spinning = true → m.ui.result = none) ∧
  m.ui.thinking = m.ui.spinning ∧
  animationsStarted m = resultsPublished m + m.suspended.length ∧
  randomCalls m = 2 * animationsStarted m

/-! ## Arithmetic of the selector -/

theorem mod360_eq (x y : ℚ) (k : ℤ) (h0 : 0 ≤ y) (h1 : y < 360)
    (hx : x = y + 360 * (k : ℚ)) : mod360 x = y := by
  have hk : ⌊x / 360⌋ = k := by
    rw [Int.floor_eq_iff]
    constructor
    · rw [le_div_iff₀ (by norm_num : (0 : ℚ) < 360)]
      linarith
    · rw [div_lt_iff₀ (by norm_num : (0 : ℚ) < 360)]
      linarith
  unfold mod360
  rw [hk, hx]
  ring

theorem mod360_of_mem (y : ℚ) (h0 : 0 ≤ y) (h1 : y < 360) : mod360 y = y :=
  mod360_eq y y 0 h0 h1 (by simp)

theorem sliceAngle_pos (n : ℕ) (hn : 1 ≤ n) : 0 < sliceAngle n := by
  unfold sliceAngle
  have : (0 : ℚ) < n := by exact_mod_cast hn
  positivity

theorem sliceAngle_mul (n : ℕ) (hn : 1 ≤ n) : sliceAngle n * (n : ℚ) = 360 := by
  unfold sliceAngle
  have : (n : ℚ) ≠ 0 := by
    have : (0 : ℚ) < n := by exact_mod_cast hn
    exact ne_of_gt this
  field_simp

/-- The centre of a slice `i` of `[0, n)` lies strictly inside `(0, 360)`. -/
theorem centre_bounds (n : ℕ) (i : ℤ) (hn : 1 ≤ n) (hi0 : 0 ≤ i) (hi : i < n) :
    0 < (i : ℚ) * sliceAngle n + sliceAngle n / 2 ∧
      (i : ℚ) * sliceAngle n + sliceAngle n / 2 < 360 := by
  have hs := sliceAngle_pos n hn
  have hm := sliceAngle_mul n hn
  have h0 : (0 : ℚ) ≤ i := by exact_mod_cast hi0
  have h1 : (i : ℚ) + 1 ≤ n := by exact_mod_cast hi
  constructor
  · have : 0 ≤ (i : ℚ) * sliceAngle n := mul_nonneg h0 (le_of_lt hs)
    linarith
  · have : ((i : ℚ) + 1) * sliceAngle n ≤ (n : ℚ) * sliceAngle n :=
      mul_le_mul_of_nonneg_right h1 (le_of_lt hs)
    nlinarith

theorem mod360_target (n : ℕ) (i ft : ℤ) (hn : 1 ≤ n) (hi0 : 0 ≤ i) (hi : i < n) :
    mod360 (target n i ft) = 360 - ((i : ℚ) * sliceAngle n + sliceAngle n / 2) := by
  obtain ⟨h0, h1⟩ := centre_bounds n i hn hi0 hi
  apply mod360_eq _ _ ft
  · linarith
  · linarith
  · unfold target
    ring

theorem angleAtPointer_target (n : ℕ) (i ft : ℤ) (hn : 1 ≤ n) (hi0 : 0 ≤ i) (hi : i < n) :
    angleAtPointer (target n i ft) = (i : ℚ) * sliceAngle n + sliceAngle n / 2 := by
  obtain ⟨h0, h1⟩ := centre_bounds n i hn hi0 hi
  unfold angleAtPointer
  rw [mod360_target n i ft hn hi0 hi]
  rw [mod360_of_mem _ (by linarith) (by linarith)]
  ring

/-! ## Double rounding and `rand` -/

theorem roundHalfEven_le (q : ℚ) : (roundHalfEven q : ℚ) ≤ q + 1 / 2 := by
  have h1 := Int.floor_le q
  unfold roundHalfEven
  split_ifs with a b c
  · linarith
  · push_cast
    linarith
  · linarith
  · push_cast
    have : q - (⌊q⌋ : ℚ) = 1 / 2 := le_antisymm (not_lt.mp b) (not_lt.mp a)
    linarith

theorem roundHalfEven_nonneg (q : ℚ) (h : 0 ≤ q) : 0 ≤ roundHalfEven q := by
  have h1 : 0 ≤ ⌊q⌋ := Int.floor_nonneg.mpr h
  unfold roundHalfEven
  split_ifs <;> omega

theorem roundHalfEven_near (q : ℚ) (f : ℤ) (h1 : (f : ℚ) - 1 / 2 < q) (h2 : q < (f : ℚ) + 1 / 2) :
    roundHalfEven q = f := by
  rcases le_or_lt (f : ℚ) q with h | h
  · have hf : ⌊q⌋ = f := by
      rw [Int.floor_eq_iff]
      exact ⟨h, by linarith⟩
    unfold roundHalfEven
    rw [hf, if_pos (by linarith)]
  · have hf : ⌊q⌋ = f - 1 := by
      rw [Int.floor_eq_iff]
      push_cast
      exact ⟨by linarith, by linarith⟩
    unfold roundHalfEven
    rw [hf]
    push_cast
    rw [if_neg (by linarith), if_pos (by linarith)]
    ring

theorem roundHalfEven_tie_odd (q : ℚ) (f : ℤ) (h : q = (f : ℚ) + 1 / 2) (hodd : f % 2 = 1) :
    roundHalfEven q = f + 1 := by
  have hf : ⌊q⌋ = f := by
    rw [Int.floor_eq_iff]
    exact ⟨by linarith, by linarith⟩
  unfold roundHalfEven
  rw [hf, if_neg (by linarith), if_neg (by linarith), if_neg (by omega)]

theorem Draw.val_nonneg (u : Draw) : 0 ≤ u.val := by
  unfold Draw.val
  positivity

theorem Draw.val_le (u : Draw) : u.val ≤ 1 - 1 / 2 ^ 53 := by
  unfold Draw.val
  have hp : (0 : ℚ) < 2 ^ u.scale := by positivity
  rw [div_le_iff₀ hp]
  rcases le_or_lt 53 u.scale with h | h
  · have h1 : (u.mant : ℚ) ≤ 2 ^ 53 - 1 := by
      have := u.mant_lt
      have : u.mant + 1 ≤ 2 ^ 53 := this
      have : ((u.mant + 1 : ℕ) : ℚ) ≤ ((2 ^ 53 : ℕ) : ℚ) := by exact_mod_cast this
      push_cast at this
      linarith
    have h2 : (2 : ℚ) ^ 53 ≤ 2 ^ u.scale := pow_le_pow_right₀ (by norm_num) h
    have h3 : (1 - 1 / 2 ^ 53 : ℚ) * 2 ^ 53 = 2 ^ 53 - 1 := by norm_num
    have h4 : (0 : ℚ) ≤ 1 - 1 / 2 ^ 53 := by norm_num
    calc (u.mant : ℚ) ≤ 2 ^ 53 - 1 := h1
      _ = (1 - 1 / 2 ^ 53 : ℚ) * 2 ^ 53 := h3.symm
      _ ≤ (1 - 1 / 2 ^ 53 : ℚ) * 2 ^ u.scale := mul_le_mul_of_nonneg_left h2 h4
  · have h1 : (u.mant : ℚ) ≤ 2 ^ u.scale - 1 := by
      have : u.mant + 1 ≤ 2 ^ u.scale := u.lt_one
      have : ((u.mant + 1 : ℕ) : ℚ) ≤ ((2 ^ u.scale : ℕ) : ℚ) := by exact_mod_cast this
      push_cast at this
      linarith
    have h2 : (2 : ℚ) ^ u.scale ≤ 2 ^ 53 := pow_le_pow_right₀ (by norm_num) (le_of_lt h)
    have h5 : (2 : ℚ) ^ u.scale / 2 ^ 53 ≤ 1 := by
      rw [div_le_one (by positivity)]
      exact h2
    have : (1 - 1 / 2 ^ 53 : ℚ) * 2 ^ u.scale = 2 ^ u.scale - 2 ^ u.scale / 2 ^ 53 := by ring
    rw [this]
    linarith

theorem Draw.val_lt_one (u : Draw) : u.val < 1 := by
  have := u.val_le
  have : (0 : ℚ) < 1 / 2 ^ 53 := by positivity
  linarith


theorem two_zpow_pos (c : ℤ) : (0 : ℚ) < 2 ^ c := zpow_pos (by norm_num) c

/-- The rounded value is at most half a unit in the last place above. -/
theorem toDouble_le (x : ℚ) : toDouble x ≤ x + 2 ^ ulpExp x / 2 := by
  have hp := two_zpow_pos (ulpExp x)
  have h := roundHalfEven_le (x / 2 ^ ulpExp x)
  unfold toDouble
  have := mul_le_mul_of_nonneg_right h (le_of_lt hp)
  have e : (x / 2 ^ ulpExp x + 1 / 2) * 2 ^ ulpExp x = x + 2 ^ ulpExp x / 2 := by
    field_simp
    ring
  linarith

theorem toDouble_nonneg (x : ℚ) (h : 0 ≤ x) : 0 ≤ toDouble x := by
  have hp := two_zpow_pos (ulpExp x)
  unfold toDouble
  have : (0 : ℚ) ≤ (roundHalfEven (x / 2 ^ ulpExp x) : ℚ) := by
    exact_mod_cast roundHalfEven_nonneg _ (div_nonneg h (le_of_lt hp))
  exact mul_nonneg this (le_of_lt hp)

/-- The unit in the last place of a positive `x` below `n`, with `n ≥ 1`,
is less than `n / 2 ^ 52`. -/
theorem ulp_lt (x n : ℚ) (hx : 0 < x) (hxn : x < n) (hn : 1 ≤ n) :
    (2 : ℚ) ^ ulpExp x < n / 2 ^ 52 := by
  rw [lt_div_iff₀ (by positivity)]
  have hlog : (2 : ℚ) ^ Int.log 2 x ≤ x := by
    have := Int.zpow_log_le_self (b := 2) (r := x) (by norm_num) hx
    simpa using this
  unfold ulpExp
  rw [abs_of_pos hx]
  rcases max_cases (Int.log 2 x - 52) (-1074) with ⟨h, _⟩ | ⟨h, _⟩
  · rw [h]
    have e52 : (2 : ℚ) ^ (52 : ℕ) = (2 : ℚ) ^ (52 : ℤ) := by norm_num
    have : (2 : ℚ) ^ (Int.log 2 x - 52) * 2 ^ 52 = 2 ^ Int.log 2 x := by
      rw [e52, ← zpow_add₀ (by norm_num : (2 : ℚ) ≠ 0), sub_add_cancel]
    rw [this]
    linarith
  · rw [h]
    have : (2 : ℚ) ^ (-1074 : ℤ) * 2 ^ 52 < 1 := by norm_num
    linarith

/-- A product of a draw and `n ≥ 1` rounds to a double below `n`. -/
theorem toDouble_mul_lt (u : Draw) (n : ℚ) (hn : 1 ≤ n) : toDouble (u.val * n) < n := by
  have hu0 := u.val_nonneg
  have hu1 := u.val_le
  have hnpos : 0 < n := by linarith
  rcases eq_or_lt_of_le (mul_nonneg hu0 (le_of_lt hnpos)) with h | h
  · rw [← h]
    have : toDouble 0 = 0 := by simp [toDouble, roundHalfEven]
    rw [this]
    exact hnpos
  · have hxn : u.val * n < n := by
      have := mul_lt_mul_of_pos_right u.val_lt_one hnpos
      linarith
    have hulp := ulp_lt (u.val * n) n h hxn hn
    have hle := toDouble_le (u.val * n)
    have hgap : u.val * n ≤ n - n / 2 ^ 53 := by
      have := mul_le_mul_of_nonneg_right hu1 (le_of_lt hnpos)
      have e : (1 - 1 / 2 ^ 53 : ℚ) * n = n - n / 2 ^ 53 := by ring
      linarith
    have e2 : n / 2 ^ 52 / 2 = n / 2 ^ 53 := by ring
    linarith

theorem rand_bounds (u : Draw) (n : ℕ) (hn : 1 ≤ n) : 0 ≤ rand u n ∧ rand u n < n := by
  have hq : (1 : ℚ) ≤ n := by exact_mod_cast hn
  unfold rand
  constructor
  · exact Int.floor_nonneg.mpr
      (toDouble_nonneg _ (mul_nonneg u.val_nonneg (by linarith)))
  · rw [Int.floor_lt]
    exact_mod_cast toDouble_mul_lt u n hq

theorem log_two_eq (x : ℚ) (e : ℤ) (hx : 0 < x) (h1 : (2 : ℚ) ^ e ≤ x) (h2 : x < 2 ^ (e + 1)) :
    Int.log 2 x = e := by
  have a : e ≤ Int.log 2 x := by
    rw [← Int.zpow_le_iff_le_log (by norm_num) hx]
    simpa using h1
  have b : Int.log 2 x < e + 1 := by
    rw [← Int.lt_zpow_iff_log_lt (by norm_num) hx]
    simpa using h2
  omega

/-- The rounding of a positive `x` of the binade `[2 ^ e, 2 ^ (e + 1))`, `e ≥ -1022`. -/
theorem toDouble_eval (x : ℚ) (e r : ℤ) (hx : 0 < x) (h1 : (2 : ℚ) ^ e ≤ x)
    (h2 : x < 2 ^ (e + 1)) (he : -1022 ≤ e) (hr : roundHalfEven (x / 2 ^ (e - 52)) = r) :
    toDouble x = (r : ℚ) * 2 ^ (e - 52) := by
  have hu : ulpExp x = e - 52 := by
    unfold ulpExp
    rw [abs_of_pos hx, log_two_eq x e hx h1 h2]
    exact max_eq_left (by omega)
  unfold toDouble
  rw [hu, hr]

theorem toDouble_zero : toDouble 0 = 0 := by simp [toDouble, roundHalfEven]

theorem fullTurnsOf_mem (u : Draw) :
    fullTurnsOf u = 4 ∨ fullTurnsOf u = 5 ∨ fullTurnsOf u = 6 := by
  obtain ⟨h0, h1⟩ := rand_bounds u 3 (by norm_num)
  unfold fullTurnsOf
  have h2 : rand u 3 < 3 := by exact_mod_cast h1
  omega

/-! ## C1 -/

/-- C1: for every option count `n ≥ 1`, every index `0 ≤ i < n` and every
number of full turns (4, 5 and 6 among them), the angle at the pointer
`(360 − (target mod 360)) mod 360` lies in `[i * sliceAngle, (i + 1) * sliceAngle)`;
`target mod 360` is `360 − (i * sliceAngle + sliceAngle / 2)` whatever the
full turns, the slice of the angle at the pointer is `i` again, and two
draws with the same target have the same index. -/
theorem pointer_angle_in_winner_slice (n : ℕ) (i ft : ℤ) (hn : 1 ≤ n) (hi0 : 0 ≤ i)
    (hi : i < n) :
    ((i : ℚ) * sliceAngle n ≤ angleAtPointer (target n i ft) ∧
      angleAtPointer (target n i ft) < ((i : ℚ) + 1) * sliceAngle n) ∧
    (∀ ft2 : ℤ, mod360 (target n i ft2) = mod360 (target n i ft)) ∧
    mod360 (target n i ft) = 360 - ((i : ℚ) * sliceAngle n + sliceAngle n / 2) ∧
    sliceOfAngle n (angleAtPointer (target n i ft)) = i ∧
    (∀ j ft2 : ℤ, 0 ≤ j → j < n → target n j ft2 = target n i ft → j = i) := by
  have hs := sliceAngle_pos n hn
  have hslice : ∀ j ft2 : ℤ, 0 ≤ j → j < n →
      sliceOfAngle n (angleAtPointer (target n j ft2)) = j := by
    intro j ft2 hj0 hj
    unfold sliceOfAngle
    rw [angleAtPointer_target n j ft2 hn hj0 hj, Int.floor_eq_iff]
    constructor
    · rw [le_div_iff₀ hs]
      linarith
    · rw [div_lt_iff₀ hs]
      linarith
  have ha := angleAtPointer_target n i ft hn hi0 hi
  refine ⟨⟨?_, ?_⟩, ?_, mod360_target n i ft hn hi0 hi, hslice i ft hi0 hi, ?_⟩
  · rw [ha]
    linarith
  · rw [ha]
    linarith
  · intro ft2
    rw [mod360_target n i ft2 hn hi0 hi, mod360_target n i ft hn hi0 hi]
  · intro j ft2 hj0 hj heq
    rw [← hslice j ft2 hj0 hj, heq, hslice i ft hi0 hi]

/-- C1 at six options, index 2 and five full turns. -/
theorem pointer_angle_in_winner_slice_witness :
    (1 ≤ 6 ∧ (0 : ℤ) ≤ 2 ∧ (2 : ℤ) < ((6 : ℕ) : ℤ)) ∧
    ((((2 : ℤ) : ℚ) * sliceAngle 6 ≤ angleAtPointer (target 6 2 5) ∧
      angleAtPointer (target 6 2 5) < (((2 : ℤ) : ℚ) + 1) * sliceAngle 6) ∧
    (∀ ft2 : ℤ, mod360 (target 6 2 ft2) = mod360 (target 6 2 5)) ∧
    mod360 (target 6 2 5) = 360 - (((2 : ℤ) : ℚ) * sliceAngle 6 + sliceAngle 6 / 2) ∧
    sliceOfAngle 6 (angleAtPointer (target 6 2 5)) = 2 ∧
    (∀ j ft2 : ℤ, 0 ≤ j → j < ((6 : ℕ) : ℤ) → target 6 j ft2 = target 6 2 5 → j = 2)) :=
  ⟨by decide, pointer_angle_in_winner_slice 6 2 5 (by decide) (by decide) (by decide)⟩

/-! ## C9 -/

theorem sliceAngle_two : sliceAngle 2 = 180 := by
  unfold sliceAngle
  norm_num

theorem sliceAngle_six : sliceAngle 6 = 60 := by
  unfold sliceAngle
  norm_num

theorem rand_draw0 (n : ℕ) : rand draw0 n = 0 := by
  have : draw0.val = 0 := by simp [Draw.val, draw0]
  unfold rand
  rw [this, zero_mul, toDouble_zero]
  simp

theorem rand_drawHalf_two : rand drawHalf 2 = 1 := by
  have hv : drawHalf.val * ((2 : ℕ) : ℚ) = 1 := by norm_num [Draw.val, drawHalf]
  have : toDouble 1 = 1 := by
    rw [toDouble_eval 1 0 (2 ^ 52) (by norm_num) (by norm_num) (by norm_num) (by norm_num)
      (roundHalfEven_near _ _ (by norm_num) (by norm_num))]
    norm_num
  unfold rand
  rw [hv, this]
  simp

theorem rand_draw9_six : rand draw9 6 = 5 := by
  have hv : draw9.val * ((6 : ℕ) : ℚ) = 24319437987800679 / 2 ^ 52 := by
    norm_num [Draw.val, draw9]
  have : toDouble (24319437987800679 / 2 ^ 52) = 6079859496950170 / 2 ^ 50 := by
    rw [toDouble_eval _ 2 6079859496950170 (by norm_num) (by norm_num) (by norm_num)
      (by norm_num) (roundHalfEven_near _ _ (by norm_num) (by norm_num))]
    norm_num
  unfold rand
  rw [hv, this, Int.floor_eq_iff]
  norm_num

theorem rand_draw9_three : rand draw9 3 = 2 := by
  have hv : draw9.val * ((3 : ℕ) : ℚ) = 24319437987800679 / 2 ^ 53 := by
    norm_num [Draw.val, draw9]
  have : toDouble (24319437987800679 / 2 ^ 53) = 6079859496950170 / 2 ^ 51 := by
    rw [toDouble_eval _ 1 6079859496950170 (by norm_num) (by norm_num) (by norm_num)
      (by norm_num) (roundHalfEven_near _ _ (by norm_num) (by norm_num))]
    norm_num
  unfold rand
  rw [hv, this, Int.floor_eq_iff]
  norm_num

theorem rand_drawFiveSixths_six : rand drawFiveSixths 6 = 5 ∧ ⌊drawFiveSixths.val * 6⌋ = 4 := by
  have hv : drawFiveSixths.val * ((6 : ℕ) : ℚ) = 11258999068426239 / 2 ^ 51 := by
    norm_num [Draw.val, drawFiveSixths]
  have : toDouble (11258999068426239 / 2 ^ 51) = 5 := by
    rw [toDouble_eval _ 2 5629499534213120 (by norm_num) (by norm_num) (by norm_num)
      (by norm_num) (roundHalfEven_tie_odd _ 5629499534213119 (by norm_num) (by norm_num))]
    norm_num
  constructor
  · unfold rand
    rw [hv, this]
    exact Int.floor_intCast 5
  · rw [Int.floor_eq_iff]
    norm_num [Draw.val, drawFiveSixths]

theorem rand_drawTwoThirds_three :
    rand drawTwoThirds 3 = 2 ∧ ⌊drawTwoThirds.val * 3⌋ = 1 := by
  have hv : drawTwoThirds.val * ((3 : ℕ) : ℚ) = 18014398509481983 / 2 ^ 53 := by
    norm_num [Draw.val, drawTwoThirds]
  have : toDouble (18014398509481983 / 2 ^ 53) = 2 := by
    rw [toDouble_eval _ 0 9007199254740992 (by norm_num) (by norm_num) (by norm_num)
      (by norm_num) (roundHalfEven_tie_odd _ 9007199254740991 (by norm_num) (by norm_num))]
    norm_num
  constructor
  · unfold rand
    rw [hv, this]
    exact Int.floor_intCast 2
  · rw [Int.floor_eq_iff]
    norm_num [Draw.val, drawTwoThirds]

theorem fullTurnsOf_draw0 : fullTurnsOf draw0 = 4 := by
  unfold fullTurnsOf
  rw [rand_draw0]
  rfl

theorem fullTurnsOf_draw9 : fullTurnsOf draw9 = 6 := by
  unfold fullTurnsOf
  rw [rand_draw9_three]
  rfl

theorem onSpin_idle (opts : List String) (m : Machine) (u1 u2 : Draw)
    (h : m.ui.spinning = false) :
    onSpin opts m u1 u2 =
      { ui := { m.ui with result := none, spinning := true, thinking := true },
        suspended := m.suspended ++
          [{ winnerIndex := rand u1 (slices opts),
             target := target (slices opts) (rand u1 (slices opts)) (fullTurnsOf u2),
             stage := Stage.awaitAnimation }],
        rotate := m.rotate,
        effects := m.effects ++ [Effect.random, Effect.random,
          Effect.animate (target (slices opts) (rand u1 (slices opts)) (fullTurnsOf u2))] } := by
  simp [onSpin, h]

theorem onSpin_spinning (opts : List String) (m : Machine) (u1 u2 : Draw)
    (h : m.ui.spinning = true) : onSpin opts m u1 u2 = m := by
  simp [onSpin, h]

/-- C9: the target is `fullTurns * 360 + (360 − (index * sliceAngle + sliceAngle / 2))`
with `sliceAngle = 360 / N`; this is the angle an accepted `onSpin` hands to
the animation; with two options and four full turns, index 0 gives 1710 and
index 1 gives 1530. -/
theorem target_formula :
    (∀ (n : ℕ) (i ft : ℤ), target n i ft =
      (ft : ℚ) * 360 + (360 - ((i : ℚ) * (360 / (n : ℚ)) + 360 / (n : ℚ) / 2))) ∧
    (∀ (opts : List String) (u1 u2 : Draw),
      (onSpin opts init u1 u2).effects = [Effect.random, Effect.random,
        Effect.animate (target opts.length (rand u1 opts.length) (4 + rand u2 3))]) ∧
    sliceAngle 2 = 180 ∧
    target 2 0 4 = 1710 ∧
    target 2 1 4 = 1530 ∧
    rand draw0 2 = 0 ∧ rand drawHalf 2 = 1 ∧ fullTurnsOf draw0 = 4 ∧
    (onSpin ["A", "B"] init draw0 draw0).effects =
      [Effect.random, Effect.random, Effect.animate 1710] ∧
    (onSpin ["A", "B"] init drawHalf draw0).effects =
      [Effect.random, Effect.random, Effect.animate 1530] := by
  have h0 : target 2 0 4 = 1710 := by
    unfold target
    rw [sliceAngle_two]
    norm_num
  have h1 : target 2 1 4 = 1530 := by
    unfold target
    rw [sliceAngle_two]
    norm_num
  have r1 : rand drawHalf 2 = 1 := rand_drawHalf_two
  refine ⟨?_, ?_, sliceAngle_two, h0, h1, rand_draw0 2, r1, fullTurnsOf_draw0, ?_, ?_⟩
  · intro n i ft
    rfl
  · intro opts u1 u2
    rw [onSpin_idle opts init u1 u2 rfl]
    rfl
  · rw [onSpin_idle _ init draw0 draw0 rfl]
    have : slices ["A", "B"] = 2 := rfl
    simp only [this, rand_draw0, fullTurnsOf_draw0, h0]
    rfl
  · rw [onSpin_idle _ init drawHalf draw0 rfl]
    have : slices ["A", "B"] = 2 := rfl
    simp only [this, r1, fullTurnsOf_draw0, h1]
    rfl

/-! ## C5 -/

/-- The difference of two targets. -/
theorem target_sub (n : ℕ) (i1 i2 ft1 ft2 : ℤ) :
    target n i2 ft2 - target n i1 ft1 =
      ((ft2 : ℚ) - (ft1 : ℚ)) * 360 - ((i2 : ℚ) - (i1 : ℚ)) * sliceAngle n := by
  unfold target
  ring

/-- Two indices of `[0, n)` are less than a full turn apart. -/
theorem index_gap (n : ℕ) (i1 i2 : ℤ) (hn : 1 ≤ n) (h20 : 0 ≤ i2) (h1 : i1 < n) :
    ((i1 : ℚ) - (i2 : ℚ)) * sliceAngle n < 360 := by
  have hs := sliceAngle_pos n hn
  have hm := sliceAngle_mul n hn
  have a : (i1 : ℚ) + 1 ≤ n := by exact_mod_cast h1
  have b : (0 : ℚ) ≤ i2 := by exact_mod_cast h20
  have c : ((i1 : ℚ) - (i2 : ℚ)) * sliceAngle n ≤ ((n : ℚ) - 1) * sliceAngle n :=
    mul_le_mul_of_nonneg_right (by linarith) (le_of_lt hs)
  nlinarith

/-- C5, as the code has it: for two consecutive spins with draws `(i1, ft1)`
and `(i2, ft2)`, both indices in `[0, n)`, the second target is greater than
the first exactly when `ft2 > ft1`, or `ft2 = ft1` and `i2 < i1`; and every
target lies strictly between `fullTurns * 360` and `(fullTurns + 1) * 360`,
so with 4, 5 or 6 full turns it is above the rotation 0 the wheel starts at. -/
theorem target_order (n : ℕ) (i1 i2 ft1 ft2 : ℤ) (hn : 1 ≤ n) (h10 : 0 ≤ i1) (h1 : i1 < n)
    (h20 : 0 ≤ i2) (h2 : i2 < n) :
    (target n i1 ft1 < target n i2 ft2 ↔ ft1 < ft2 ∨ (ft1 = ft2 ∧ i2 < i1)) ∧
    ((ft2 : ℚ) * 360 < target n i2 ft2 ∧ target n i2 ft2 < ((ft2 : ℚ) + 1) * 360) ∧
    (4 ≤ ft2 → init.rotate < target n i2 ft2) := by
  have hs := sliceAngle_pos n hn
  have hd := target_sub n i1 i2 ft1 ft2
  have g12 := index_gap n i1 i2 hn h20 h1
  have g21 := index_gap n i2 i1 hn h10 h2
  obtain ⟨c0, c1⟩ := centre_bounds n i2 hn h20 h2
  have hlow : (ft2 : ℚ) * 360 < target n i2 ft2 := by
    unfold target
    linarith
  refine ⟨⟨?_, ?_⟩, ⟨hlow, ?_⟩, ?_⟩
  · intro hlt
    rcases lt_trichotomy ft1 ft2 with h | h | h
    · exact Or.inl h
    · right
      refine ⟨h, ?_⟩
      subst h
      have e : ((i1 : ℚ) - (i2 : ℚ)) * sliceAngle n > 0 := by linarith
      have : (0 : ℚ) < (i1 : ℚ) - (i2 : ℚ) := by
        by_contra hc
        have hc2 : (i1 : ℚ) - (i2 : ℚ) ≤ 0 := not_lt.mp hc
        have := mul_nonpos_of_nonpos_of_nonneg hc2 (le_of_lt hs)
        linarith
      have : (i2 : ℚ) < (i1 : ℚ) := by linarith
      exact_mod_cast this
    · exfalso
      have : (ft2 : ℚ) + 1 ≤ (ft1 : ℚ) := by exact_mod_cast h
      nlinarith
  · rintro (h | ⟨h, hi⟩)
    · have : (ft1 : ℚ) + 1 ≤ (ft2 : ℚ) := by exact_mod_cast h
      nlinarith
    · subst h
      have : (i2 : ℚ) < (i1 : ℚ) := by exact_mod_cast hi
      have : 0 < ((i1 : ℚ) - (i2 : ℚ)) * sliceAngle n := mul_pos (by linarith) hs
      linarith
  · unfold target
    linarith
  · intro h4
    have : (4 : ℚ) ≤ (ft2 : ℚ) := by exact_mod_cast h4
    have : init.rotate = 0 := rfl
    linarith

/-- C5 as the code has it, at six options for the draws `(0, 4)` then `(5, 5)`. -/
theorem target_order_witness :
    (1 ≤ 6 ∧ (0 : ℤ) ≤ 0 ∧ (0 : ℤ) < ((6 : ℕ) : ℤ) ∧ (0 : ℤ) ≤ 5 ∧ (5 : ℤ) < ((6 : ℕ) : ℤ)) ∧
    ((target 6 0 4 < target 6 5 5 ↔ (4 : ℤ) < 5 ∨ ((4 : ℤ) = 5 ∧ (5 : ℤ) < 0)) ∧
    ((((5 : ℤ) : ℚ)) * 360 < target 6 5 5 ∧ target 6 5 5 < (((5 : ℤ) : ℚ) + 1) * 360) ∧
    ((4 : ℤ) ≤ 5 → init.rotate < target 6 5 5)) :=
  ⟨by decide, target_order 6 0 5 4 5 (by decide) (by decide) (by decide) (by decide) (by decide)⟩

theorem target_six (i ft : ℤ) : target 6 i ft = (ft : ℚ) * 360 + 330 - 60 * (i : ℚ) := by
  unfold target
  rw [sliceAngle_six]
  ring

/-- C5 fails as stated: with six options the draws `(0, 6)` then `(5, 4)` give
the target 2490 and then the smaller target 1470, and the wheel, animated to
2490 by the first spin, is animated back to 1470 by the second. -/
theorem target_not_increasing :
    (¬ ∀ (n : ℕ) (i1 i2 ft1 ft2 : ℤ), 1 ≤ n → 0 ≤ i1 → i1 < n → 0 ≤ i2 → i2 < n →
        (ft1 = 4 ∨ ft1 = 5 ∨ ft1 = 6) → (ft2 = 4 ∨ ft2 = 5 ∨ ft2 = 6) →
        target n i2 ft2 > target n i1 ft1) ∧
    target 6 0 6 = 2490 ∧ target 6 5 4 = 1470 ∧
    (run OPTIONS init [Event.request draw0 draw9, Event.animationDone]).rotate = 2490 ∧
    (run OPTIONS init [Event.request draw0 draw9, Event.animationDone, Event.timerFired,
        Event.request draw9 draw0, Event.animationDone]).rotate = 1470 := by
  have a : target 6 0 6 = 2490 := by
    rw [target_six]
    norm_num
  have b : target 6 5 4 = 1470 := by
    rw [target_six]
    norm_num
  have hs : slices OPTIONS = 6 := rfl
  refine ⟨?_, a, b, ?_, ?_⟩
  · intro h
    have := h 6 0 5 6 4 (by decide) (by decide) (by decide) (by decide) (by decide)
      (by decide) (by decide)
    rw [a, b] at this
    norm_num at this
  · simp only [run, List.foldl, step]
    rw [onSpin_idle _ init _ _ rfl]
    simp only [hs, rand_draw0, fullTurnsOf_draw9, a, init, List.nil_append, animationDone]
  · simp only [run, List.foldl, step]
    rw [onSpin_idle _ init _ _ rfl]
    simp only [hs, rand_draw0, rand_draw9_six, fullTurnsOf_draw0, fullTurnsOf_draw9, a, b, init,
      List.nil_append, animationDone, timerFired, onSpin, Bool.false_eq_true, if_false]

/-! ## C2 -/

theorem sliceCentre_six (i : ℤ) : sliceCentre 6 i = 60 * (i : ℚ) + 30 := by
  unfold sliceCentre sliceStart sliceEnd
  rw [sliceAngle_six]
  ring

/-- With six options every winning rotation shows the centre of the winning
slice at angle 0 of the screen, the 3 o'clock position. -/
theorem screenAngle_centre_six (i ft : ℤ) :
    screenAngle (target 6 i ft) (sliceCentre 6 i) = 0 := by
  unfold screenAngle
  apply mod360_eq _ _ (ft + 1) (le_refl 0) (by norm_num)
  rw [target_six, sliceCentre_six]
  push_cast
  ring

/-- With six options the angle of the wheel under the pointer, for the
winning rotation of slice `i`, is the start of slice `i - 1`. -/
theorem wheelAngleUnderPointer_six (i : Fin 6) (ft : ℤ) :
    wheelAngleUnderPointer (target 6 (i.val : ℤ) ft) = 60 * (((i.val + 5) % 6 : ℕ) : ℚ) := by
  unfold wheelAngleUnderPointer pointerAngle
  rw [target_six]
  fin_cases i
  · apply mod360_eq _ _ (-ft - 1)
    · norm_num
    · norm_num
    · push_cast
      norm_num
      ring
  all_goals
    apply mod360_eq _ _ (-ft)
    · norm_num
    · norm_num
    · push_cast
      norm_num
      ring

theorem sliceUnderPointer_six (i : Fin 6) (ft : ℤ) :
    sliceUnderPointer 6 (target 6 (i.val : ℤ) ft) = (((i.val + 5) % 6 : ℕ) : ℤ) := by
  unfold sliceUnderPointer sliceOfAngle
  rw [wheelAngleUnderPointer_six, sliceAngle_six]
  have key : ∀ x : ℕ, (60 : ℚ) * (x : ℚ) / 60 = (((x : ℤ)) : ℚ) := by
    intro x
    push_cast
    ring
  rw [key, Int.floor_intCast]

/-- C2 on the code: with winner index 0 and four full turns the target is
1770; the centre of slice 0, drawn at 30 degrees, then shows at angle 0 of the
screen, not at the pointer's 270; the angle of the wheel under the pointer is
300, the start of slice 5, whose label is not the published one.  For every
winner index and every number of full turns the centre of the winning slice
shows at angle 0 and the slice under the pointer is slice `(i + 5) mod 6`,
never slice `i`. -/
theorem pointer_misses_winner :
    target 6 0 4 = 1770 ∧
    sliceCentre 6 0 = 30 ∧
    screenAngle (target 6 0 4) (sliceCentre 6 0) = 0 ∧
    pointerAngle = 270 ∧
    screenAngle (target 6 0 4) (sliceCentre 6 0) ≠ pointerAngle ∧
    wheelAngleUnderPointer (target 6 0 4) = 300 ∧
    sliceStart 6 5 = 300 ∧
    sliceUnderPointer 6 (target 6 0 4) = 5 ∧
    optionAt OPTIONS 0 = some "Skatebord" ∧
    optionAt OPTIONS (sliceUnderPointer 6 (target 6 0 4)) = some "Tegne" ∧
    (∀ (i : Fin 6) (ft : ℤ),
      screenAngle (target 6 (i.val : ℤ) ft) (sliceCentre 6 (i.val : ℤ)) = 0 ∧
      sliceUnderPointer 6 (target 6 (i.val : ℤ) ft) = (((i.val + 5) % 6 : ℕ) : ℤ) ∧
      sliceUnderPointer 6 (target 6 (i.val : ℤ) ft) ≠ (i.val : ℤ)) := by
  have hc := screenAngle_centre_six 0 4
  have hw := wheelAngleUnderPointer_six 0 4
  have hu := sliceUnderPointer_six 0 4
  simp only [Fin.val_zero, Nat.cast_zero, Nat.zero_add, Nat.reduceMod, Nat.cast_ofNat] at hw hu
  refine ⟨?_, ?_, hc, rfl, ?_, ?_, ?_, hu, ?_, ?_, ?_⟩
  · rw [target_six]
    norm_num
  · rw [sliceCentre_six]
    norm_num
  · rw [hc]
    unfold pointerAngle
    norm_num
  · rw [hw]
    norm_num
  · unfold sliceStart
    rw [sliceAngle_six]
    norm_num
  · decide
  · rw [hu]
    decide
  · intro i ft
    refine ⟨screenAngle_centre_six _ _, sliceUnderPointer_six i ft, ?_⟩
    rw [sliceUnderPointer_six i ft]
    have := i.isLt
    omega

/-! ## C10 -/

theorem optionAt_OPTIONS (k : ℤ) (h0 : 0 ≤ k) (h1 : k < 6) :
    ∃ l, optionAt OPTIONS k = some l ∧ l ∈ OPTIONS := by
  interval_cases k <;> exact ⟨_, rfl, by decide⟩

theorem labelsOk_init : LabelsOk init := by
  refine ⟨?_, Or.inl rfl, ?_⟩ <;> simp [init]

theorem mem_pushHistory {α : Type} (c x : α) (h : List α) (hx : x ∈ pushHistory c h) :
    x = c ∨ x ∈ h := by
  unfold pushHistory at hx
  have := List.mem_of_mem_take hx
  simpa using this

theorem labelsOk_step (m : Machine) (e : Event) (hm : LabelsOk m) :
    LabelsOk (step OPTIONS m e) := by
  obtain ⟨hs, hr, hh⟩ := hm
  cases e with
  | request u1 u2 =>
    simp only [step]
    cases hsp : m.ui.spinning with
    | true =>
      rw [onSpin_spinning _ _ _ _ hsp]
      exact ⟨hs, hr, hh⟩
    | false =>
      rw [onSpin_idle _ _ _ _ hsp]
      refine ⟨?_, Or.inl rfl, hh⟩
      intro s hsm
      simp only [List.mem_append, List.mem_singleton] at hsm
      rcases hsm with hsm | hsm
      · exact hs s hsm
      · subst hsm
        have := rand_bounds u1 (slices OPTIONS) (by decide)
        exact ⟨this.1, by exact_mod_cast this.2⟩
  | animationDone =>
    simp only [step, animationDone]
    split
    · rename_i k t rest heq
      refine ⟨?_, hr, hh⟩
      intro s hsm
      simp only [List.mem_cons] at hsm
      rcases hsm with hsm | hsm
      · subst hsm
        exact hs { winnerIndex := k, target := t, stage := Stage.awaitAnimation }
          (by rw [heq]; exact List.mem_cons_self _ _)
      · exact hs s (by rw [heq]; exact List.mem_cons_of_mem _ hsm)
    · exact ⟨hs, hr, hh⟩
  | timerFired =>
    simp only [step, timerFired]
    split
    · rename_i k t rest heq
      have hk := hs _ (by rw [heq]; exact List.mem_cons_self _ _)
      obtain ⟨l, hl, hlm⟩ := optionAt_OPTIONS k hk.1 hk.2
      refine ⟨?_, Or.inr ⟨l, hl, hlm⟩, ?_⟩
      · intro s hsm
        exact hs s (by rw [heq]; simp [hsm])
      · intro h hmem
        rcases mem_pushHistory _ _ _ hmem with h1 | h1
        · exact ⟨l, by rw [h1, hl], hlm⟩
        · exact hh h h1
    · exact ⟨hs, hr, hh⟩

theorem run_append (opts : List String) (m : Machine) (evs : List Event) (e : Event) :
    run opts m (evs ++ [e]) = step opts (run opts m evs) e := by
  simp [run, List.foldl_append]

theorem labelsOk_run (evs : List Event) : LabelsOk (run OPTIONS init evs) := by
  induction evs using List.reverseRecOn with
  | nil => exact labelsOk_init
  | append_singleton evs e ih =>
    rw [run_append]
    exact labelsOk_step _ e ih

/-- C10: for every `n ≥ 1` and every double `0 ≤ u < 1`, the double product
`u * n` is at least 0 and below `n` (so it is finite whenever `n` is), and
`rand(n)`, its floor, is an integer with `0 ≤ rand(n) < n`; with the six
options `slices` is 6, not zero, `sliceAngle` is 60, the winner index is in
`[0, 6)`, the lookup `OPTIONS[winnerIndex]` gives one of the six labels,
`fullTurns` is 4, 5 or 6, and after every trace of events the result is
`null` or one of the six labels and every history entry is one of the six
labels.  The product is the rounded one: the draw `0.8333333333333333` gives
`rand(6) = 5` where the exact product has floor 4, and `0.6666666666666666`
gives `rand(3) = 2` where the exact product has floor 1. -/
theorem selector_total (n : ℕ) (u : Draw) (hn : 1 ≤ n) :
    (0 ≤ rand u n ∧ rand u n < (n : ℤ)) ∧
    OPTIONS.length = 6 ∧ slices OPTIONS = 6 ∧ ((slices OPTIONS : ℕ) : ℚ) ≠ 0 ∧
    sliceAngle (slices OPTIONS) = 60 ∧
    (0 ≤ rand u (slices OPTIONS) ∧ rand u (slices OPTIONS) < 6) ∧
    (∃ l, optionAt OPTIONS (rand u (slices OPTIONS)) = some l ∧ l ∈ OPTIONS) ∧
    (fullTurnsOf u = 4 ∨ fullTurnsOf u = 5 ∨ fullTurnsOf u = 6) ∧
    (∀ evs : List Event,
      ((run OPTIONS init evs).ui.result = none ∨
        ∃ l, (run OPTIONS init evs).ui.result = some l ∧ l ∈ OPTIONS) ∧
      ∀ h ∈ (run OPTIONS init evs).ui.history, ∃ l, h = some l ∧ l ∈ OPTIONS) ∧
    (0 ≤ u.val ∧ u.val < 1) ∧
    (0 ≤ toDouble (u.val * (n : ℚ)) ∧ toDouble (u.val * (n : ℚ)) < (n : ℚ)) ∧
    ((n : ℚ) ≤ maxDouble → toDouble (u.val * (n : ℚ)) < maxDouble) ∧
    (rand drawFiveSixths 6 = 5 ∧ ⌊drawFiveSixths.val * 6⌋ = 4) ∧
    (rand drawTwoThirds 3 = 2 ∧ ⌊drawTwoThirds.val * 3⌋ = 1) := by
  have hs : slices OPTIONS = 6 := rfl
  have hb := rand_bounds u (slices OPTIONS) (by decide)
  have hb2 : rand u (slices OPTIONS) < 6 := by exact_mod_cast hb.2
  have hq : (1 : ℚ) ≤ n := by exact_mod_cast hn
  have hlt := toDouble_mul_lt u n hq
  refine ⟨rand_bounds u n hn, rfl, hs, ?_, ?_, ⟨hb.1, hb2⟩,
    optionAt_OPTIONS _ hb.1 hb2, fullTurnsOf_mem u, ?_, ⟨u.val_nonneg, u.val_lt_one⟩,
    ⟨toDouble_nonneg _ (mul_nonneg u.val_nonneg (by linarith)), hlt⟩, ?_,
    rand_drawFiveSixths_six, rand_drawTwoThirds_three⟩
  · rw [hs]
    norm_num
  · rw [hs]
    exact sliceAngle_six
  · intro evs
    exact ⟨(labelsOk_run evs).2.1, (labelsOk_run evs).2.2⟩
  · intro hmax
    exact lt_of_lt_of_le hlt hmax

/-- C10 at `n = 3` and the draw `0.9`. -/
theorem selector_total_witness :
    1 ≤ 3 ∧
    (0 ≤ rand draw9 3 ∧ rand draw9 3 < ((3 : ℕ) : ℤ)) ∧
    (fullTurnsOf draw9 = 4 ∨ fullTurnsOf draw9 = 5 ∨ fullTurnsOf draw9 = 6) ∧
    (((3 : ℕ) : ℚ) ≤ maxDouble ∧ toDouble (draw9.val * ((3 : ℕ) : ℚ)) < maxDouble) :=
  ⟨by decide, (selector_total 3 draw9 (by decide)).1,
    (selector_total 3 draw9 (by decide)).2.2.2.2.2.2.2.1,
    by norm_num [maxDouble],
    (selector_total 3 draw9 (by decide)).2.2.2.2.2.2.2.2.2.2.2.1 (by norm_num [maxDouble])⟩

/-! ## The lifecycle invariant -/

theorem inv_init : Inv init := by
  refine ⟨?_, ?_, ?_, ?_, ?_, ?_⟩ <;> simp [init, animationsStarted, resultsPublished, randomCalls]

theorem inv_step (opts : List String) (m : Machine) (e : Event) (hm : Inv m) :
    Inv (step opts m e) := by
  obtain ⟨h1, h2, h3, h4, h5, h6⟩ := hm
  have single : ∀ (s x : Suspended) (rest : List Suspended), x :: rest = [s] → rest = [] := by
    intro s x rest h
    simpa using (List.cons.inj h).2
  cases e with
  | request u1 u2 =>
    simp only [step]
    cases hsp : m.ui.spinning with
    | true =>
      rw [onSpin_spinning _ _ _ _ hsp]
      exact ⟨h1, h2, h3, h4, h5, h6⟩
    | false =>
      rw [onSpin_idle _ _ _ _ hsp]
      have hnil := h1 hsp
      unfold animationsStarted resultsPublished at h5
      unfold animationsStarted randomCalls at h6
      rw [hnil] at h5
      refine ⟨?_, ?_, ?_, ?_, ?_, ?_⟩
      · simp
      · intro _
        exact ⟨_, by rw [hnil]; rfl⟩
      · intro _
        rfl
      · rfl
      · unfold animationsStarted resultsPublished
        simp only [List.filter_append, List.length_append, hnil] at h5 ⊢
        simp at h5 ⊢
        omega
      · unfold animationsStarted randomCalls
        simp only [List.filter_append, List.length_append] at h6 ⊢
        simp at h6 ⊢
        omega
  | animationDone =>
    simp only [step, animationDone]
    split
    · rename_i k t rest heq
      refine ⟨?_, ?_, h3, h4, ?_, h6⟩
      · intro hsp
        have := h1 hsp
        rw [heq] at this
        simp at this
      · intro hsp
        obtain ⟨s, hs⟩ := h2 hsp
        rw [heq] at hs
        exact ⟨_, by rw [single _ _ _ hs]⟩
      · rw [heq] at h5
        exact h5
    · exact ⟨h1, h2, h3, h4, h5, h6⟩
  | timerFired =>
    simp only [step, timerFired]
    split
    · rename_i k t rest heq
      have hsp : m.ui.spinning = true := by
        cases h : m.ui.spinning with
        | true => rfl
        | false =>
          have := h1 h
          rw [heq] at this
          simp at this
      obtain ⟨s, hs⟩ := h2 hsp
      rw [heq] at hs
      have hrest : rest = [] := single _ _ _ hs
      unfold animationsStarted resultsPublished at h5
      unfold animationsStarted randomCalls at h6
      rw [heq, hrest] at h5
      refine ⟨?_, ?_, ?_, ?_, ?_, ?_⟩
      · intro _
        exact hrest
      · intro h
        simp at h
      · intro h
        simp at h
      · rfl
      · unfold animationsStarted resultsPublished
        simp only [List.filter_append, List.length_append, hrest] at h5 ⊢
        simp at h5 ⊢
        omega
      · unfold animationsStarted randomCalls
        simp only [List.filter_append, List.length_append] at h6 ⊢
        simp at h6 ⊢
        omega
    · exact ⟨h1, h2, h3, h4, h5, h6⟩

theorem inv_run (opts : List String) (evs : List Event) : Inv (run opts init evs) := by
  induction evs using List.reverseRecOn with
  | nil => exact inv_init
  | append_singleton evs e ih =>
    rw [run_append]
    exact inv_step opts _ e ih

/-- One whole spin from a state with no spin in flight. -/
theorem run_cycle (opts : List String) (m : Machine) (u1 u2 : Draw)
    (h1 : m.ui.spinning = false) (h2 : m.suspended = []) :
    run opts m [Event.request u1 u2, Event.animationDone, Event.timerFired] =
      { ui := { result := optionAt opts (rand u1 (slices opts)),
                spinning := false, thinking := false,
                history := pushHistory (optionAt opts (rand u1 (slices opts))) m.ui.history },
        suspended := [],
        rotate := target (slices opts) (rand u1 (slices opts)) (fullTurnsOf u2),
        effects := m.effects ++ [Effect.random, Effect.random,
          Effect.animate (target (slices opts) (rand u1 (slices opts)) (fullTurnsOf u2)),
          Effect.confetti] } := by
  simp only [run, List.foldl, step]
  rw [onSpin_idle _ _ _ _ h1, h2]
  simp [animationDone, timerFired]

/-! ## C3 -/

theorem pushHistory_eq {α : Type} (c : α) (h : List α) :
    pushHistory c h = c :: h.take 5 := rfl

theorem historyAfter_append {α : Type} (os : List α) (o : α) :
    historyAfter (os ++ [o]) = pushHistory o (historyAfter os) := by
  simp [historyAfter, List.foldl_append]

theorem historyAfter_eq {α : Type} (os : List α) : historyAfter os = os.reverse.take 6 := by
  induction os using List.reverseRecOn with
  | nil => rfl
  | append_singleton os o ih =>
    rw [historyAfter_append, ih, pushHistory_eq, List.reverse_append]
    simp only [List.reverse_cons, List.reverse_nil, List.nil_append, List.singleton_append,
      List.take_succ_cons, List.take_take]
    rfl

theorem run_session (opts : List String) (ds : List (Draw × Draw)) (m : Machine)
    (h1 : m.ui.spinning = false) (h2 : m.suspended = []) :
    (run opts m (session ds)).ui.history =
      (ds.map (fun d => optionAt opts (rand d.1 (slices opts)))).foldl
        (fun h o => pushHistory o h) m.ui.history := by
  induction ds generalizing m with
  | nil => rfl
  | cons d ds ih =>
    obtain ⟨u1, u2⟩ := d
    have hc := run_cycle opts m u1 u2 h1 h2
    have hsplit : run opts m (session ((u1, u2) :: ds)) =
        run opts (run opts m [Event.request u1 u2, Event.animationDone, Event.timerFired])
          (session ds) := rfl
    rw [hsplit, hc, ih _ rfl rfl]
    rfl

/-- C3: after the outcomes `o1 .. oK` (oldest first) the history is the
first six elements of `[oK, .., o1]`; its length is `min K 6`, never above 6,
and exactly 6 once `K > 6`; a push onto a full history drops its last, oldest
entry; six spins give `[o6, o5, o4, o3, o2, o1]` and a seventh gives
`[o7, o6, o5, o4, o3, o2]`; and the history of the component after a session
of `K` whole spins is the history after their `K` outcomes. -/
theorem history_is_last_six {α : Type} (os : List α) (c : α) (h : List α)
    (o1 o2 o3 o4 o5 o6 o7 : α) (opts : List String) (ds : List (Draw × Draw)) :
    historyAfter os = os.reverse.take 6 ∧
    (historyAfter os).length = min os.length 6 ∧
    (historyAfter os).length ≤ 6 ∧
    (6 < os.length → (historyAfter os).length = 6) ∧
    (pushHistory c h).length ≤ 6 ∧
    (h.length = 6 → pushHistory c h = c :: h.dropLast) ∧
    historyAfter [o1, o2, o3, o4, o5, o6] = [o6, o5, o4, o3, o2, o1] ∧
    historyAfter [o1, o2, o3, o4, o5, o6, o7] = [o7, o6, o5, o4, o3, o2] ∧
    pushHistory o7 [o6, o5, o4, o3, o2, o1] = [o7, o6, o5, o4, o3, o2] ∧
    (run opts init (session ds)).ui.history =
      historyAfter (ds.map (fun d => optionAt opts (rand d.1 (slices opts)))) := by
  have hlen : (historyAfter os).length = min os.length 6 := by
    rw [historyAfter_eq, List.length_take, List.length_reverse, min_comm]
  refine ⟨historyAfter_eq os, hlen, ?_, ?_, ?_, ?_, rfl, rfl, rfl, ?_⟩
  · rw [hlen]
    exact min_le_right _ _
  · intro hk
    rw [hlen]
    omega
  · unfold pushHistory
    rw [List.length_take]
    exact min_le_left _ _
  · intro hl
    rw [pushHistory_eq, List.dropLast_eq_take, hl]
  · exact run_session opts ds init rfl rfl

/-- C3 on seven labels. -/
theorem history_is_last_six_witness :
    (["a", "b", "c", "d", "e", "f"].length = 6 ∧
      6 < ["O1", "O2", "O3", "O4", "O5", "O6", "O7"].length) ∧
    historyAfter ["O1", "O2", "O3", "O4", "O5", "O6", "O7"] =
      ["O7", "O6", "O5", "O4", "O3", "O2"] ∧
    (historyAfter ["O1", "O2", "O3", "O4", "O5", "O6", "O7"]).length = 6 ∧
    pushHistory "g" ["a", "b", "c", "d", "e", "f"] = "g" :: ["a", "b", "c", "d", "e", "f"].dropLast :=
  ⟨by decide,
   (history_is_last_six ["O1", "O2", "O3", "O4", "O5", "O6", "O7"] "g"
      ["a", "b", "c", "d", "e", "f"] "O1" "O2" "O3" "O4" "O5" "O6" "O7" OPTIONS []).2.2.2.2.2.2.2.1,
   (history_is_last_six ["O1", "O2", "O3", "O4", "O5", "O6", "O7"] "g"
      ["a", "b", "c", "d", "e", "f"] "O1" "O2" "O3" "O4" "O5" "O6" "O7" OPTIONS []).2.2.2.1
      (by decide),
   (history_is_last_six ["O1", "O2", "O3", "O4", "O5", "O6", "O7"] "g"
      ["a", "b", "c", "d", "e", "f"] "O1" "O2" "O3" "O4" "O5" "O6" "O7" OPTIONS []).2.2.2.2.2.1
      (by decide)⟩

/-! ## C4 -/

/-- C4: in every state with `spinning = true`, `onSpin` gives the state it
was given: result, history, spinning and thinking are as they were, no random
number is drawn, no animation is started and no call is left suspended. -/
theorem onSpin_while_spinning (opts : List String) (m : Machine) (u1 u2 : Draw)
    (h : m.ui.spinning = true) :
    onSpin opts m u1 u2 = m ∧
    (onSpin opts m u1 u2).ui.result = m.ui.result ∧
    (onSpin opts m u1 u2).ui.history = m.ui.history ∧
    (onSpin opts m u1 u2).ui.spinning = true ∧
    (onSpin opts m u1 u2).ui.thinking = m.ui.thinking ∧
    randomCalls (onSpin opts m u1 u2) = randomCalls m ∧
    animationsStarted (onSpin opts m u1 u2) = animationsStarted m ∧
    (onSpin opts m u1 u2).effects = m.effects ∧
    (onSpin opts m u1 u2).suspended = m.suspended ∧
    (onSpin opts m u1 u2).rotate = m.rotate := by
  rw [onSpin_spinning opts m u1 u2 h]
  exact ⟨rfl, rfl, rfl, h, rfl, rfl, rfl, rfl, rfl, rfl⟩

/-- C4 on a state with a spin in flight. -/
theorem onSpin_while_spinning_witness :
    spinningExample.ui.spinning = true ∧
    onSpin OPTIONS spinningExample draw9 draw0 = spinningExample :=
  ⟨rfl, (onSpin_while_spinning OPTIONS spinningExample draw9 draw0 rfl).1⟩

/-! ## C6 -/

/-- C6: a spin accepted in a state with no spin in flight, with drawn index
`i = rand(slices)`, once its animation has finished and the timer has fired,
has set the result to `OPTIONS[i]`, pushed that value onto the front of the
history, cleared `spinning` and `thinking`, and the result is the first
element of the history; the animation it started was the one to
`target(i, fullTurns)`, for the same `i`, and confetti was launched once.
The last step alone does the publishing: with the call for index `k` waiting
for the timer, `timerFired` sets the result to `OPTIONS[k]` and pushes it. -/
theorem spin_completion (opts : List String) (m : Machine) (u1 u2 : Draw) (k : ℤ) (t : ℚ)
    (h1 : m.ui.spinning = false) (h2 : m.suspended = []) :
    (run opts m [Event.request u1 u2, Event.animationDone, Event.timerFired]).ui.result =
      optionAt opts (rand u1 (slices opts)) ∧
    (run opts m [Event.request u1 u2, Event.animationDone, Event.timerFired]).ui.history =
      pushHistory (optionAt opts (rand u1 (slices opts))) m.ui.history ∧
    (run opts m [Event.request u1 u2, Event.animationDone, Event.timerFired]).ui.spinning = false ∧
    (run opts m [Event.request u1 u2, Event.animationDone, Event.timerFired]).ui.thinking = false ∧
    (run opts m [Event.request u1 u2, Event.animationDone, Event.timerFired]).ui.history.head? =
      some (run opts m
        [Event.request u1 u2, Event.animationDone, Event.timerFired]).ui.result ∧
    (run opts m [Event.request u1 u2, Event.animationDone, Event.timerFired]).effects =
      m.effects ++ [Effect.random, Effect.random,
        Effect.animate (target (slices opts) (rand u1 (slices opts)) (fullTurnsOf u2)),
        Effect.confetti] ∧
    (run opts m [Event.request u1 u2, Event.animationDone]).ui =
      { m.ui with result := none, spinning := true, thinking := true } ∧
    (timerFired opts { m with suspended :=
        [{ winnerIndex := k, target := t, stage := Stage.awaitTimer }] }).ui =
      { result := optionAt opts k, spinning := false, thinking := false,
        history := optionAt opts k :: m.ui.history.take 5 } := by
  rw [run_cycle opts m u1 u2 h1 h2]
  refine ⟨rfl, rfl, rfl, rfl, rfl, rfl, ?_, rfl⟩
  simp only [run, List.foldl, step]
  rw [onSpin_idle _ _ _ _ h1, h2]
  rfl

/-- C6 on the first spin of a session, with the draws `9/10` and `0`. -/
theorem spin_completion_witness :
    (init.ui.spinning = false ∧ init.suspended = []) ∧
    (run OPTIONS init [Event.request draw9 draw0, Event.animationDone, Event.timerFired]).ui.result =
      optionAt OPTIONS (rand draw9 (slices OPTIONS)) ∧
    optionAt OPTIONS (rand draw9 (slices OPTIONS)) = some "Tegne" ∧
    (run OPTIONS init [Event.request draw9 draw0, Event.animationDone, Event.timerFired]).ui.history =
      pushHistory (optionAt OPTIONS (rand draw9 (slices OPTIONS))) init.ui.history :=
  ⟨⟨rfl, rfl⟩, (spin_completion OPTIONS init draw9 draw0 0 0 rfl rfl).1,
    by
      have hs : slices OPTIONS = 6 := rfl
      rw [hs, rand_draw9_six]
      rfl,
    (spin_completion OPTIONS init draw9 draw0 0 0 rfl rfl).2.1⟩

/-! ## C7 -/

theorem spinningThroughout_ui (opts : List String) (evs : List Event) (m : Machine)
    (h : spinningThroughout opts m evs = true) : (run opts m evs).ui = m.ui := by
  induction evs generalizing m with
  | nil => rfl
  | cons e es ih =>
    simp only [spinningThroughout, Bool.and_eq_true] at h
    obtain ⟨hsp, hrest⟩ := h
    have hstep : (step opts m e).ui = m.ui := by
      cases e with
      | request u1 u2 =>
        simp only [step]
        rw [onSpin_spinning _ _ _ _ hsp]
      | animationDone =>
        simp only [step, animationDone]
        split <;> rfl
      | timerFired =>
        have hnext : (step opts m Event.timerFired).ui.spinning = true := by
          cases es with
          | nil => exact hrest
          | cons e2 es2 =>
            simp only [spinningThroughout, Bool.and_eq_true] at hrest
            exact hrest.1
        simp only [step, timerFired] at hnext ⊢
        split at hnext
        · simp at hnext
        · rfl
    have : run opts m (e :: es) = run opts (step opts m e) es := rfl
    rw [this, ih _ hrest, hstep]

/-- C7: a request in a state with `spinning = false` sets the result to
`null`, sets `spinning` and `thinking`, and leaves the history as it was; in
every state reached from the initial one with `spinning = true` the result is
`null`; and for as long as the component stays spinning through the events
that follow, result, history, `spinning` and `thinking` do not change. -/
theorem request_enters_spinning (opts : List String) (m : Machine) (u1 u2 : Draw)
    (evs : List Event) (h : m.ui.spinning = false) :
    ((onSpin opts m u1 u2).ui.result = none ∧
      (onSpin opts m u1 u2).ui.spinning = true ∧
      (onSpin opts m u1 u2).ui.thinking = true ∧
      (onSpin opts m u1 u2).ui.history = m.ui.history) ∧
    ((run opts init evs).ui.spinning = true →
      (run opts init evs).ui.result = none ∧ (run opts init evs).ui.thinking = true) ∧
    (spinningThroughout opts (onSpin opts m u1 u2) evs = true →
      (run opts (onSpin opts m u1 u2) evs).ui.result = none ∧
      (run opts (onSpin opts m u1 u2) evs).ui.history = m.ui.history ∧
      (run opts (onSpin opts m u1 u2) evs).ui.spinning = true ∧
      (run opts (onSpin opts m u1 u2) evs).ui.thinking = true) := by
  have hacc : (onSpin opts m u1 u2).ui.result = none ∧
      (onSpin opts m u1 u2).ui.spinning = true ∧
      (onSpin opts m u1 u2).ui.thinking = true ∧
      (onSpin opts m u1 u2).ui.history = m.ui.history := by
    rw [onSpin_idle _ _ _ _ h]
    exact ⟨rfl, rfl, rfl, rfl⟩
  refine ⟨hacc, ?_, ?_⟩
  · intro hsp
    obtain ⟨_, _, h3, h4, _, _⟩ := inv_run opts evs
    exact ⟨h3 hsp, by rw [h4, hsp]⟩
  · intro hthr
    rw [spinningThroughout_ui opts evs _ hthr]
    exact ⟨hacc.1, hacc.2.2.2, hacc.2.1, hacc.2.2.1⟩

/-- C7 on the first request of a session, followed by a second request and
the end of the animation. -/
theorem request_enters_spinning_witness :
    (init.ui.spinning = false ∧
      spinningThroughout OPTIONS (onSpin OPTIONS init draw0 draw0)
        [Event.request draw9 draw9, Event.animationDone] = true) ∧
    ((run OPTIONS (onSpin OPTIONS init draw0 draw0)
        [Event.request draw9 draw9, Event.animationDone]).ui.result = none ∧
      (run OPTIONS (onSpin OPTIONS init draw0 draw0)
        [Event.request draw9 draw9, Event.animationDone]).ui.history = init.ui.history ∧
      (run OPTIONS (onSpin OPTIONS init draw0 draw0)
        [Event.request draw9 draw9, Event.animationDone]).ui.spinning = true ∧
      (run OPTIONS (onSpin OPTIONS init draw0 draw0)
        [Event.request draw9 draw9, Event.animationDone]).ui.thinking = true) := by
  have hthr : spinningThroughout OPTIONS (onSpin OPTIONS init draw0 draw0)
      [Event.request draw9 draw9, Event.animationDone] = true := by
    rw [onSpin_idle _ init _ _ rfl]
    simp [spinningThroughout, step, onSpin, animationDone, init]
  exact ⟨⟨rfl, hthr⟩,
    (request_enters_spinning OPTIONS init draw0 draw0
      [Event.request draw9 draw9, Event.animationDone] rfl).2.2 hthr⟩

/-! ## C8 -/

theorem animationDone_ui (m : Machine) : (animationDone m).ui = m.ui := by
  unfold animationDone
  split <;> rfl

theorem onSpin_idle_spinning (opts : List String) (m : Machine) (u1 u2 : Draw)
    (h : m.ui.spinning = false) : (onSpin opts m u1 u2).ui.spinning = true := by
  rw [onSpin_idle _ _ _ _ h]

/-- C8: after every trace of events from the initial state at most one call
of `onSpin` is suspended, and one is exactly when `spinning` is set; the
results published and the spin in flight together are the animations
started; a request while spinning leaves the state as it is; so the traces
request, request, completion and request, animation end, request, timer end
in the state of request, completion, with one animation started, one result
published and one history entry. -/
theorem one_spin_in_flight (opts : List String) (evs : List Event) (a b c d : Draw) :
    (run opts init evs).suspended.length ≤ 1 ∧
    ((run opts init evs).ui.spinning = true ↔ (run opts init evs).suspended.length = 1) ∧
    resultsPublished (run opts init evs) + (run opts init evs).suspended.length =
      animationsStarted (run opts init evs) ∧
    ((run opts init evs).ui.spinning = true →
      run opts init (evs ++ [Event.request c d]) = run opts init evs) ∧
    run opts init [Event.request a b, Event.request c d, Event.animationDone, Event.timerFired] =
      run opts init [Event.request a b, Event.animationDone, Event.timerFired] ∧
    run opts init [Event.request a b, Event.animationDone, Event.request c d, Event.timerFired] =
      run opts init [Event.request a b, Event.animationDone, Event.timerFired] ∧
    resultsPublished (run opts init
      [Event.request a b, Event.request c d, Event.animationDone, Event.timerFired]) = 1 ∧
    animationsStarted (run opts init
      [Event.request a b, Event.request c d, Event.animationDone, Event.timerFired]) = 1 ∧
    (run opts init
      [Event.request a b, Event.request c d, Event.animationDone, Event.timerFired]).ui.history =
        [optionAt opts (rand a (slices opts))] ∧
    (run opts init
      [Event.request a b, Event.request c d, Event.animationDone, Event.timerFired]).ui.result =
        optionAt opts (rand a (slices opts)) ∧
    (run opts init
      [Event.request a b, Event.request c d, Event.animationDone, Event.timerFired]).suspended =
        [] := by
  obtain ⟨h1, h2, _, _, h5, _⟩ := inv_run opts evs
  have hsp1 := onSpin_idle_spinning opts init a b rfl
  have e1 : run opts init
      [Event.request a b, Event.request c d, Event.animationDone, Event.timerFired] =
      run opts init [Event.request a b, Event.animationDone, Event.timerFired] := by
    have : onSpin opts (onSpin opts init a b) c d = onSpin opts init a b :=
      onSpin_spinning _ _ _ _ hsp1
    simp only [run, List.foldl, step]
    rw [this]
  have e2 : run opts init
      [Event.request a b, Event.animationDone, Event.request c d, Event.timerFired] =
      run opts init [Event.request a b, Event.animationDone, Event.timerFired] := by
    have : onSpin opts (animationDone (onSpin opts init a b)) c d =
        animationDone (onSpin opts init a b) :=
      onSpin_spinning _ _ _ _ (by rw [animationDone_ui]; exact hsp1)
    simp only [run, List.foldl, step]
    rw [this]
  have hc := run_cycle opts init a b rfl rfl
  refine ⟨?_, ⟨?_, ?_⟩, ?_, ?_, e1, e2, ?_, ?_, ?_, ?_, ?_⟩
  · cases hsp : (run opts init evs).ui.spinning with
    | true =>
      obtain ⟨s, hs⟩ := h2 hsp
      rw [hs]
      exact le_refl 1
    | false =>
      rw [h1 hsp]
      exact Nat.zero_le 1
  · intro hsp
    obtain ⟨s, hs⟩ := h2 hsp
    rw [hs]
    rfl
  · intro hlen
    cases hsp : (run opts init evs).ui.spinning with
    | true => rfl
    | false =>
      rw [h1 hsp] at hlen
      simp at hlen
  · exact h5.symm
  · intro hsp
    rw [run_append]
    exact onSpin_spinning _ _ _ _ hsp
  · rw [e1, hc]
    simp [resultsPublished, init]
  · rw [e1, hc]
    simp [animationsStarted, init]
  · rw [e1, hc]
    rfl
  · rw [e1, hc]
  · rw [e1, hc]

/-- C8 on the trace of one request: the component is spinning, and a second
request is dropped. -/
theorem one_spin_in_flight_witness :
    (run OPTIONS init [Event.request draw0 draw9]).ui.spinning = true ∧
    run OPTIONS init ([Event.request draw0 draw9] ++ [Event.request draw9 draw0]) =
      run OPTIONS init [Event.request draw0 draw9] ∧
    resultsPublished (run OPTIONS init
      [Event.request draw0 draw9, Event.request draw9 draw0, Event.animationDone,
        Event.timerFired]) = 1 :=
  ⟨onSpin_idle_spinning OPTIONS init draw0 draw9 rfl,
    (one_spin_in_flight OPTIONS [Event.request draw0 draw9] draw0 draw9 draw9 draw0).2.2.2.1
      (onSpin_idle_spinning OPTIONS init draw0 draw9 rfl),
    (one_spin_in_flight OPTIONS [Event.request draw0 draw9] draw0 draw9 draw9
      draw0).2.2.2.2.2.2.1⟩

end LydaWheel
